import Mathlib

/-!
Verification of the web-archive-scraper repository's attachment subsystem.

The Python source is shallowly embedded: pure string/list manipulation is
translated function by function; filesystem and network effects are made
explicit (a directory is a list of filenames already present, an HTTP
response is a record, a fallible call is `Except`).  Definitions follow
`src/app/components/{utils,downloader,scraper,roeselite_scraper}.py` and
`src/app/components/scraper/moodle_scraper.py`.
-/

namespace Scraper

/-! ### Basic string helpers

Python `str` operations used by the source, modelled on `List Char` /
`String`.  URLs and filenames handled by this program are ASCII, where
Python's `str.lower`, `str.strip` and the regex class `\s` agree with the
ASCII-level definitions below. -/

/-- Python's `\s` regex class and `str.strip()` whitespace, restricted to the
ASCII range (space, tab, newline, carriage return, vertical tab, form feed,
and the separator controls 1c-1f that CPython's unicode whitespace table
contains). -/
def pySpace (c : Char) : Bool :=
  c == ' ' || c == '\t' || c == '\n' || c == '\x0d' ||
  c == '\x0b' || c == '\x0c' || c == '\x1c' || c == '\x1d' ||
  c == '\x1e' || c == '\x1f'

/-- Substring containment on character lists (scan every tail). -/
def containsSubList (pat : List Char) : List Char → Bool
  | [] => pat.isEmpty
  | c :: cs => pat.isPrefixOf (c :: cs) || containsSubList pat cs

/-- Python `substring in s` (substring containment). -/
def strContains (s pat : String) : Bool :=
  containsSubList pat.toList s.toList

/-- Python `s.endswith(pat)`. -/
def strEndsWith (s pat : String) : Bool :=
  pat.toList.isSuffixOf s.toList

/-- Python `s.lower()` (ASCII case folding; URLs in this program are ASCII). -/
def pyLower (s : String) : String :=
  ⟨s.toList.map Char.toLower⟩

/-- Python `s.strip()`: drop leading and trailing whitespace. -/
def pyStrip (s : String) : String :=
  ⟨(s.toList.dropWhile pySpace).rdropWhile pySpace⟩

/-- Python `s.strip(chars)` for a set of characters given as a predicate. -/
def pyStripChars (p : Char → Bool) (s : String) : String :=
  ⟨(s.toList.dropWhile p).rdropWhile p⟩

/-- Python `s.rstrip(chars)`. -/
def pyRStripChars (p : Char → Bool) (s : String) : String :=
  ⟨s.toList.rdropWhile p⟩

/-! ### Order-preserving deduplication

Both scrapers finish with `list(dict.fromkeys(out))`: keep the first
occurrence of every URL, in discovery order. -/

/-- Accumulator form of `dict.fromkeys`: `seen` holds the values already
emitted. -/
def dedupSeen (seen : List String) : List String → List String
  | [] => []
  | x :: xs => if seen.contains x then dedupSeen seen xs
               else x :: dedupSeen (x :: seen) xs

/-- Python `list(dict.fromkeys(l))`: first occurrences, in order. -/
def dedupKeepFirst (l : List String) : List String :=
  dedupSeen [] l

/-! ### `urlparse(url).netloc`

The network-location component of a URL: present exactly when, after an
optional `scheme:` marker, the string continues with `//`; it then extends
to the next `/`, `?` or `#`. -/

/-- Characters legal in a URL scheme after the leading letter. -/
def isSchemeChar (c : Char) : Bool :=
  c.isAlpha || c.isDigit || c == '+' || c == '-' || c == '.'

/-- Drop a leading `scheme:` if the prefix before the first colon is a valid
scheme name (letter first, then letters/digits/`+`/`-`/`.`). -/
def dropScheme (cs : List Char) : List Char :=
  let pre := cs.takeWhile (fun c => !(c == ':'))
  match cs.drop pre.length with
  | [] => cs
  | _ :: rest =>
    match pre with
    | [] => cs
    | p :: ps => if p.isAlpha && ps.all isSchemeChar then rest else cs

/-- `urlparse(url).netloc`: the host part (with any userinfo/port) of an
absolute URL, `""` when the URL has no `//` authority. -/
def netlocOf (url : String) : String :=
  match dropScheme url.toList with
  | '/' :: '/' :: rest =>
      ⟨rest.takeWhile (fun c => !(c == '/' || c == '?' || c == '#'))⟩
  | _ => ""

/-! ### `safe_filename` (`utils.py`)

The sanitising pipeline: strip whitespace, rewrite German umlauts, NFKD
normalisation plus ASCII re-encoding, replace problematic filesystem
characters, collapse whitespace/underscore runs, strip `_`/`.` from the
ends, truncate, and fall back to `"page"` when nothing is left. -/

/-- The `umlaut_map` dict of `_normalize_umlauts`. -/
def umlaut_map : List (Char × List Char) :=
  [('Ä', ['A', 'e']), ('ä', ['a', 'e']),
   ('Ö', ['O', 'e']), ('ö', ['o', 'e']),
   ('Ü', ['U', 'e']), ('ü', ['u', 'e']),
   ('ß', ['s', 's']),
   ('ẞ', ['S', 'S'])]

/-- Per-character action of `_normalize_umlauts`: mapped characters are
replaced by their expansion, every other character is kept. -/
def umlautChar (c : Char) : List Char :=
  match umlaut_map.find? (fun q => q.1 == c) with
  | some q => q.2
  | none => [c]

/-- `_normalize_umlauts`. -/
def normalizeUmlauts (s : String) : String :=
  ⟨s.toList.flatMap umlautChar⟩

/-- Decompositions used for the `unicodedata.normalize('NFKD', ·)` then
`encode('ascii','ignore')` step, for the Latin letters this scraper meets:
an accented letter decomposes into its base letter plus combining marks, of
which only the ASCII base letter survives the ASCII re-encoding.  Any other
non-ASCII character contributes no ASCII bytes and is dropped. -/
def nfkdTable : List (Char × List Char) :=
  [('á', ['a']), ('à', ['a']), ('â', ['a']), ('ã', ['a']), ('å', ['a']),
   ('ä', ['a']), ('é', ['e']), ('è', ['e']), ('ê', ['e']), ('ë', ['e']),
   ('í', ['i']), ('ì', ['i']), ('î', ['i']), ('ï', ['i']), ('ñ', ['n']),
   ('ó', ['o']), ('ò', ['o']), ('ô', ['o']), ('õ', ['o']), ('ö', ['o']),
   ('ú', ['u']), ('ù', ['u']), ('û', ['u']), ('ü', ['u']), ('ý', ['y']),
   ('ÿ', ['y']), ('ç', ['c']),
   ('Á', ['A']), ('À', ['A']), ('Â', ['A']), ('Ã', ['A']), ('Å', ['A']),
   ('Ä', ['A']), ('É', ['E']), ('È', ['E']), ('Ê', ['E']), ('Ë', ['E']),
   ('Í', ['I']), ('Ì', ['I']), ('Î', ['I']), ('Ï', ['I']), ('Ñ', ['N']),
   ('Ó', ['O']), ('Ò', ['O']), ('Ô', ['O']), ('Õ', ['O']), ('Ö', ['O']),
   ('Ú', ['U']), ('Ù', ['U']), ('Û', ['U']), ('Ü', ['U']), ('Ý', ['Y']),
   ('Ç', ['C'])]

/-- Per-character action of NFKD normalisation followed by
`encode('ascii','ignore').decode('ascii')`: ASCII characters are unchanged
(they are NFKD-invariant), tabulated accented letters keep their ASCII base
letter, all other non-ASCII characters are dropped. -/
def nfkdAsciiChar (c : Char) : List Char :=
  if c.toNat < 128 then [c]
  else
    match nfkdTable.find? (fun q => q.1 == c) with
    | some q => q.2
    | none => []

/-- The `unicodedata.normalize('NFKD', text).encode('ascii','ignore')` step. -/
def asciiClean (s : String) : String :=
  ⟨s.toList.flatMap nfkdAsciiChar⟩

/-- The character class of the regex `[<>:"/\\|?*]`. -/
def isBadChar (c : Char) : Bool :=
  c == '<' || c == '>' || c == ':' || c == '"' || c == '/' ||
  c == '\\' || c == '|' || c == '?' || c == '*'

/-- The substitution replacing each problematic character with `_`. -/
def replaceBad (s : String) : String :=
  ⟨s.toList.map (fun c => if isBadChar c then '_' else c)⟩

/-- The character class of the regex `[\s_]`. -/
def spaceUnd (c : Char) : Bool :=
  pySpace c || c == '_'

/-- Collapsing machine for the substitution replacing each maximal
`[\s_]+` run with a single `_`; the flag records whether the previous
character was part of a run. -/
def collapseAux : Bool → List Char → List Char
  | _, [] => []
  | inRun, c :: cs =>
    if spaceUnd c then
      if inRun then collapseAux true cs else '_' :: collapseAux true cs
    else c :: collapseAux false cs

/-- The substitution replacing each `[\s_]+` run with a single `_`. -/
def collapseRuns (s : String) : String :=
  ⟨collapseAux false s.toList⟩

/-- The character set of `strip('_.')`. -/
def underscoreDot (c : Char) : Bool :=
  c == '_' || c == '.'

/-- The pipeline of `safe_filename` up to (and including) the ends-strip,
before truncation and fallback. -/
def sanitizePipeline (text : String) : String :=
  pyStripChars underscoreDot
    (collapseRuns (replaceBad (asciiClean (normalizeUmlauts (pyStrip text)))))

/-- Truncation step of `safe_filename`: when the name exceeds `max_len`,
cut it to `max_len` characters and re-strip trailing `_`/`.`. -/
def truncateName (t6 : String) (maxLen : Nat) : String :=
  if t6.length > maxLen
  then pyRStripChars underscoreDot ⟨t6.toList.take maxLen⟩
  else t6

/-- `safe_filename(text, max_len)` of `utils.py` (`max_len` defaults to 90
at the call sites that omit it). -/
def safe_filename (text : String) (maxLen : Nat) : String :=
  if text = "" then "page"
  else if truncateName (sanitizePipeline text) maxLen = "" then "page"
  else truncateName (sanitizePipeline text) maxLen

/-! ### The download policy flags (`BaseConfig`) -/

/-- The boolean resource-download policy flags of `BaseConfig`. -/
structure Policy where
  include_mode_dl : Bool
  include_mode_raw : Bool
  include_archive_zip : Bool
  include_archive_tgz : Bool
  include_pdfs : Bool
  include_images : Bool

/-! ### The Roeselite filter (`RoeseliteScraper.collect_attachments`,
identical logic in `Scraper._collect_resource_links`)

The DOM query and `full_url` resolution are upstream of the filter: the
embedding receives the already-resolved absolute candidate URLs in
discovery order, exactly the `url` values of the source's loop. -/

/-- The per-URL body of the collection loop: each matching rule appends
`url` to `out` (a URL matching several rules is appended several times);
the later `dict.fromkeys` removes the duplicates. -/
def includeUrl (p : Policy) (url : String) : List String :=
  let u := pyLower url
  (if p.include_mode_dl && strContains u "mode=dl" then [url] else []) ++
  (if p.include_mode_raw && strContains u "mode=raw" then [url] else []) ++
  (if p.include_archive_zip && strEndsWith u ".zip" then [url] else []) ++
  (if p.include_archive_tgz &&
      (strEndsWith u ".tgz" || strEndsWith u ".tar.gz" || strEndsWith u ".gz")
   then [url] else []) ++
  (if p.include_pdfs && strEndsWith u ".pdf" then [url] else []) ++
  (if p.include_images &&
      (strEndsWith u ".png" || strEndsWith u ".jpg" || strEndsWith u ".jpeg")
   then [url] else [])

/-- One candidate's contribution: rejected outright when its host is not in
`allowed_resource_hosts`, else whatever the inclusion rules emit. -/
def candidateContribution (p : Policy) (allowed : List String) (url : String) :
    List String :=
  if allowed.contains (netlocOf url) then includeUrl p url else []

/-- `RoeseliteScraper.collect_attachments`: filter the discovered candidate
URLs by host and policy, then deduplicate keeping discovery order. -/
def roeseliteCollect (p : Policy) (allowed : List String)
    (candidates : List String) : List String :=
  dedupKeepFirst (candidates.flatMap (candidateContribution p allowed))

/-- The disjunction of the six inclusion rules, as one boolean. -/
def ruleMatches (p : Policy) (url : String) : Bool :=
  let u := pyLower url
  (p.include_mode_dl && strContains u "mode=dl") ||
  (p.include_mode_raw && strContains u "mode=raw") ||
  (p.include_archive_zip && strEndsWith u ".zip") ||
  (p.include_archive_tgz &&
    (strEndsWith u ".tgz" || strEndsWith u ".tar.gz" || strEndsWith u ".gz")) ||
  (p.include_pdfs && strEndsWith u ".pdf") ||
  (p.include_images &&
    (strEndsWith u ".png" || strEndsWith u ".jpg" || strEndsWith u ".jpeg"))

/-! ### The Moodle filter (`MoodleScraper.collect_attachments`)

The six DOM strategies each propose URLs and append them to `download_urls`
under an identical host guard (`if host in allowed_resource_hosts`); the
embedding receives the strategies' proposed URLs, in order, as `candidates`.
The file-type filter, the last-resort fallback and the final
`dict.fromkeys` are modelled exactly. -/

/-- The per-URL file-type filter of `MoodleScraper.collect_attachments`
(the `should_include` cascade). -/
def moodleShouldInclude (p : Policy) (url : String) : Bool :=
  let u := pyLower url
  if p.include_pdfs && strEndsWith u ".pdf" then true
  else if p.include_archive_zip && strEndsWith u ".zip" then true
  else if p.include_archive_tgz &&
      (strEndsWith u ".tgz" || strEndsWith u ".tar.gz" || strEndsWith u ".gz")
    then true
  else if p.include_images &&
      (strEndsWith u ".png" || strEndsWith u ".jpg" ||
       strEndsWith u ".jpeg" || strEndsWith u ".gif")
    then true
  else if p.include_mode_dl || p.include_mode_raw then true
  else
    strEndsWith u ".pdf" || strEndsWith u ".doc" || strEndsWith u ".docx" ||
    strEndsWith u ".ppt" || strEndsWith u ".pptx" || strEndsWith u ".xls" ||
    strEndsWith u ".xlsx"

/-- `MoodleScraper.collect_attachments`: host-guarded accumulation, file-type
filter, last-resort fallback to all host-allowed URLs, deduplication. -/
def moodleCollect (p : Policy) (allowed : List String)
    (candidates : List String) : List String :=
  let download_urls := candidates.filter (fun url => allowed.contains (netlocOf url))
  let filtered_urls := download_urls.filter (moodleShouldInclude p)
  dedupKeepFirst
    (if filtered_urls.isEmpty && !download_urls.isEmpty
     then download_urls else filtered_urls)

/-- After collapsing, no two adjacent characters are both in the
whitespace-or-underscore class. -/
def noRunStep (a b : Char) : Prop :=
  spaceUnd a = false ∨ spaceUnd b = false

/-! ### The invariant of the sanitising pipeline's output -/

/-- Character-level invariant of every `safe_filename` output: ASCII, no
whitespace, none of the problematic filesystem characters. -/
def cleanChar (c : Char) : Prop :=
  c.toNat < 128 ∧ pySpace c = false ∧ isBadChar c = false

/-- Output invariant of `safe_filename`: clean characters, no adjacent
whitespace/underscore pair, and neither end is an underscore or a dot. -/
def cleanOutput (l : List Char) : Prop :=
  (∀ c ∈ l, cleanChar c) ∧
  List.Chain' noRunStep l ∧
  (∀ c, l.head? = some c → underscoreDot c = false) ∧
  (∀ c, l.getLast? = some c → underscoreDot c = false)

/-! ### `os.path.splitext`

Split a filename at the last dot, except that a dot-only prefix (as in
`.bashrc`) yields no extension. -/

/-- Index of the last `.` in `cs`, if any. -/
def lastDotIndex (cs : List Char) : Option Nat :=
  match cs.reverse.findIdx? (fun c => c == '.') with
  | some p => some (cs.length - 1 - p)
  | none => none

/-- `os.path.splitext` for plain filenames (no directory separators):
`(stem, ext)` with `ext` starting at the last dot, unless every character
before that dot is itself a dot. -/
def splitext (s : String) : String × String :=
  match lastDotIndex s.toList with
  | none => (s, "")
  | some i =>
      if (s.toList.take i).any (fun c => !(c == '.'))
      then (⟨s.toList.take i⟩, ⟨s.toList.drop i⟩)
      else (s, "")

/-! ### Decimal rendering of the collision counter

`f"{stem}_{k}{ext}"` renders `k` with `Nat.repr`; the freshness proof of the
collision loop needs that this rendering is injective, which we prove by
re-reading the digits. -/

/-- The most-significant-first decimal digit characters of `n`. -/
def digitsList (n : Nat) : List Char :=
  if _h : n < 10 then [Nat.digitChar n]
  else digitsList (n / 10) ++ [Nat.digitChar (n % 10)]
termination_by n
decreasing_by exact Nat.div_lt_self (by omega) (by omega)

/-- Numeric value of a decimal digit character. -/
def digitVal (c : Char) : Nat := c.toNat - 48

/-- Read a most-significant-first digit string back into a number. -/
def valDigits (l : List Char) : Nat :=
  l.foldl (fun a c => 10 * a + digitVal c) 0

/-! ### Filename resolution on collision and on re-run

`Downloader._get_unique_filename` implements the replacement policy;
`Scraper.save_attachments_for_current_page` implements the `_2`, `_3`, …
suffix search.  A directory is modelled by the list of filenames it
already contains. -/

/-- `Downloader._get_unique_filename`: `cfg` is the optional configuration's
`replace_existing_files` flag (`none` models a downloader constructed
without a config, which Python's `self.config and …` treats as false). -/
def get_unique_filename (cfg : Option Bool) (existing : List String)
    (base_filename : String) : Option String :=
  if !existing.contains base_filename then some base_filename
  else if cfg.getD false then some base_filename
  else none

/-- The candidate name `f"{stem}_{k}{ext}"` of the collision loop. -/
def candName (stem ext : String) (k : Nat) : String :=
  stem ++ "_" ++ Nat.repr k ++ ext

/-- The `while True` search of `save_attachments_for_current_page`: try
`k`, `k+1`, … until the candidate name is free.  The Python loop is
unbounded; the callers pass fuel `existing.length + 1`, which provably
reaches the first free candidate, so the bounded recursion computes the
same name the loop does. -/
def findSuffix (existing : List String) (stem ext : String) :
    Nat → Nat → String
  | 0, k => candName stem ext k
  | fuel + 1, k =>
      if existing.contains (candName stem ext k)
      then findSuffix existing stem ext fuel (k + 1)
      else candName stem ext k

/-- The collision-resolution step of `save_attachments_for_current_page`
(scraper.py lines 176-186): keep the proposed filename when it is free,
else append the first free `_2`, `_3`, … suffix to its stem. -/
def resolveCollision (existing : List String) (filename : String) : String :=
  if existing.contains filename then
    findSuffix existing (splitext filename).1 (splitext filename).2
      (existing.length + 1) 2
  else filename

/-! ### URL components (`urllib.parse`) -/

/-- The remainder of a URL after scheme and authority: host names and the
characters before the path/query/fragment are consumed. -/
def afterAuthority (cs : List Char) : List Char :=
  match dropScheme cs with
  | '/' :: '/' :: rest =>
      rest.dropWhile (fun c => !(c == '/' || c == '?' || c == '#'))
  | other => other

/-- `urlparse(url).path`. -/
def urlPathOf (url : String) : String :=
  ⟨(afterAuthority url.toList).takeWhile (fun c => !(c == '?' || c == '#'))⟩

/-- `urlparse(url).query`. -/
def urlQueryOf (url : String) : String :=
  match (afterAuthority url.toList).dropWhile (fun c => !(c == '?' || c == '#')) with
  | '?' :: qs => ⟨qs.takeWhile (fun c => !(c == '#'))⟩
  | _ => ""

/-- `os.path.basename`: the part after the last `/`. -/
def pyBasename (path : String) : String :=
  ⟨(path.toList.reverse.takeWhile (fun c => !(c == '/'))).reverse⟩

/-- Value of a hexadecimal digit character, if it is one. -/
def hexVal (c : Char) : Option Nat :=
  if c.isDigit then some (c.toNat - 48)
  else if 'a' ≤ c ∧ c ≤ 'f' then some (c.toNat - 87)
  else if 'A' ≤ c ∧ c ≤ 'F' then some (c.toNat - 55)
  else none

/-- `urllib.parse.unquote`, modelled for single-byte escapes: `%` followed
by two hex digits becomes the coded character, anything else is kept.
(Multi-byte UTF-8 escape sequences decode to non-ASCII text that the later
`safe_filename` pass would discard; the values this program meets are
ASCII.) -/
def pyUnquote : List Char → List Char
  | '%' :: a :: b :: rest =>
      match hexVal a, hexVal b with
      | some ha, some hb => Char.ofNat (16 * ha + hb) :: pyUnquote rest
      | _, _ => '%' :: pyUnquote (a :: b :: rest)
  | c :: rest => c :: pyUnquote rest
  | [] => []

/-- The `+`-to-space then percent-decoding of `urllib.parse.unquote_plus`,
as used by `parse_qsl`. -/
def unquotePlus (cs : List Char) : List Char :=
  pyUnquote (cs.map (fun c => if c == '+' then ' ' else c))

/-- Split one `name=value` chunk at its first `=`, if it has one. -/
def splitPair (chunk : String) : Option (String × String) :=
  match chunk.toList.drop ((chunk.toList.takeWhile (fun c => !(c == '='))).length) with
  | '=' :: v => some (⟨chunk.toList.takeWhile (fun c => !(c == '='))⟩, ⟨v⟩)
  | _ => none

/-- Split a character list on `&`, keeping empty chunks (the behaviour of
Python `str.split`). -/
def splitOnAmp : List Char → List (List Char)
  | [] => [[]]
  | c :: cs =>
      if c == '&' then [] :: splitOnAmp cs
      else
        match splitOnAmp cs with
        | [] => [[c]]
        | h :: t => (c :: h) :: t

/-- `urllib.parse.parse_qsl` with its defaults: split on `&`, skip empty
chunks, chunks without `=` and blank values, and unquote names and
values. -/
def parseQsl (query : String) : List (String × String) :=
  (splitOnAmp query.toList).filterMap (fun chunk =>
    if chunk.isEmpty then none
    else
      match splitPair ⟨chunk⟩ with
      | none => none
      | some (n, v) =>
          if v = "" then none
          else some (⟨unquotePlus n.toList⟩, ⟨unquotePlus v.toList⟩))

/-- `dict(parse_qsl(query)).get(key)`: the value of the last pair carrying
`key` (later dict insertions overwrite earlier ones). -/
def qslGet (pairs : List (String × String)) (key : String) : Option String :=
  match pairs.reverse.find? (fun q => q.1 == key) with
  | some q => some q.2
  | none => none

/-- `suggest_filename(url, target_dir)` of `utils.py`: name from the URL
path's basename (or `"file"`), made safe; on a conflict with an existing
file, append the query's `mode` value when there is one. -/
def suggest_filename (url : String) (existing : List String) : String :=
  if !existing.contains (safe_filename
      (if pyBasename (urlPathOf url) = "" then "file" else pyBasename (urlPathOf url)) 90)
  then safe_filename
      (if pyBasename (urlPathOf url) = "" then "file" else pyBasename (urlPathOf url)) 90
  else
    (splitext (safe_filename
      (if pyBasename (urlPathOf url) = "" then "file" else pyBasename (urlPathOf url)) 90)).1 ++
    (match qslGet (parseQsl (urlQueryOf url)) "mode" with
     | some m => "__mode=" ++ m
     | none => "") ++
    (splitext (safe_filename
      (if pyBasename (urlPathOf url) = "" then "file" else pyBasename (urlPathOf url)) 90)).2

/-! ### The content-disposition filename regex

`re.search(r'filename[*]?=(?:UTF-8\x27\x27)?["\x27]?([^"\x27;]+)', cd)`,
modelled as the scan it performs: at each position try to match the
pattern, with the regex's greedy optional groups and their backtracking. -/

/-- A character the capturing group `[^"';]+` accepts. -/
def capChar (c : Char) : Bool :=
  !(c == '"' || c == '\'' || c == ';')

/-- Consume the optional quote of `["']?`. -/
def quoteStrip (cs : List Char) : List Char :=
  match cs with
  | c :: rest => if c == '"' || c == '\'' then rest else cs
  | [] => []

/-- The quoted-capture tail `["']?([^"';]+)` of the pattern: an optional
quote, then a non-empty greedy capture.  (If the quote is consumed and the
capture comes up empty, backtracking over the optional quote cannot help:
the quote character itself is excluded from the class.) -/
def quoteCap (cs : List Char) : Option (List Char) :=
  match (quoteStrip cs).takeWhile capChar with
  | [] => none
  | cap => some cap

/-- The `[*]?=` part after the literal `filename`. -/
def starEq : List Char → Option (List Char)
  | '*' :: '=' :: rest => some rest
  | '=' :: rest => some rest
  | _ => none

/-- One anchored attempt of the whole pattern at the head of `cs`: the
greedy optional `(?:UTF-8'')?` is tried first; if the rest of the pattern
then fails, backtracking retries without consuming it. -/
def matchFilenameAt (cs : List Char) : Option (List Char) :=
  if ("filename".toList).isPrefixOf cs then
    match starEq (cs.drop 8) with
    | none => none
    | some rest =>
        if ("UTF-8''".toList).isPrefixOf rest then
          match quoteCap (rest.drop 7) with
          | some cap => some cap
          | none => quoteCap rest
        else quoteCap rest
  else none

/-- The left-to-right scan of `re.search`: first position where the
pattern matches wins. -/
def searchFilename : List Char → Option (List Char)
  | [] => none
  | c :: cs =>
      match matchFilenameAt (c :: cs) with
      | some cap => some cap
      | none => searchFilename cs

/-- `match.group(1)` of the filename regex over a header value. -/
def cdFilenameMatch (headerValue : String) : Option String :=
  (searchFilename headerValue.toList).map (fun l => ⟨l⟩)

/-! ### The downloader strategies (`downloader.py`)

Network and browser effects are supplied as an explicit environment: the
HTTP response (or the exception `page.request.get` raised), whether the
file write raises, the target directory's current contents, and the
configuration's replacement flag.  A translated `try` body has type
`Except Unit (Option String)`: `Except.error` is an escaping Python
exception, which the public `download` entry point catches. -/

/-- The fields of a Playwright `APIResponse` the downloader reads. -/
structure PyResp where
  ok : Bool
  status : Nat
  contentType : Option String
  contentDisposition : Option String

/-- Python truthiness of an optional string (`None` and `""` are falsy). -/
def optTruthy : Option String → Bool
  | some s => !(s == "")
  | none => false

/-- `resp.headers.get("content-disposition", "")`. -/
def cdOf (resp : PyResp) : String := resp.contentDisposition.getD ""

/-- `(resp.headers.get("content-type") or "").lower()`. -/
def ctypeOf (resp : PyResp) : String := pyLower (resp.contentType.getD "")

/-- Python `s.startswith(pat)`. -/
def strStartsWith (s pat : String) : Bool :=
  pat.toList.isPrefixOf s.toList

/-- The URL-suffix extension heuristics of `_extract_filename`'s
no-extension branch. -/
def inferExtFromUrl (url : String) : String :=
  if strEndsWith (pyLower url) ".pdf" then ".pdf"
  else if strEndsWith (pyLower url) ".zip" then ".zip"
  else if strEndsWith (pyLower url) ".doc" || strEndsWith (pyLower url) ".docx"
  then (splitext (pyLower url)).2
  else ""

/-- The `if not ext` fallback of `_extract_filename`'s preferred-title
branch: content type first, then URL suffix. -/
def inferExt (url : String) (resp : PyResp) : String :=
  if strContains (ctypeOf resp) "pdf" then ".pdf"
  else if strContains (ctypeOf resp) "zip" then ".zip"
  else inferExtFromUrl url

/-- The extension chosen for a preferred title: from the
content-disposition suggestion when the header is present, else from the
URL path; when still empty, from the content type or URL suffix. -/
def extractExtPreferred (url : String) (resp : PyResp) : String :=
  if (if cdOf resp ≠ "" then
        (match cdFilenameMatch (cdOf resp) with
         | some cap => (splitext (pyStrip cap)).2
         | none => "")
      else (splitext (urlPathOf url)).2) = ""
  then inferExt url resp
  else
    (if cdOf resp ≠ "" then
        (match cdFilenameMatch (cdOf resp) with
         | some cap => (splitext (pyStrip cap)).2
         | none => "")
      else (splitext (urlPathOf url)).2)

/-- `RequestDownloader._extract_filename`: preferred title first, then the
server-suggested name from the content-disposition header, then the URL
heuristic.  `existing` stands for the target directory's contents (used by
`suggest_filename`'s conflict check). -/
def extract_filename (url : String) (resp : PyResp) (existing : List String)
    (preferred : Option String) : String :=
  if optTruthy preferred then
    safe_filename (preferred.getD "") 90 ++ extractExtPreferred url resp
  else if cdOf resp ≠ "" then
    match cdFilenameMatch (cdOf resp) with
    | some cap =>
        if strStartsWith (pyStrip cap) "UTF-8''"
        then safe_filename ⟨pyUnquote ((pyStrip cap).toList.drop 7)⟩ 90
        else safe_filename (pyStrip cap) 90
    | none => suggest_filename url existing
  else suggest_filename url existing

/-- Environment of one `RequestDownloader.download` call. -/
structure ReqEnv where
  resp : Except Unit PyResp
  writeRaises : Bool
  existing : List String
  cfgReplace : Option Bool

/-- The `try` body of `RequestDownloader.download`: fetch, bail out on a
non-OK status, resolve the filename against the replacement policy, write
(which may raise), and return the filename. -/
def requestDownloadBody (env : ReqEnv) (url : String)
    (preferred : Option String) : Except Unit (Option String) :=
  match env.resp with
  | .error e => .error e
  | .ok resp =>
      if !resp.ok then .ok none
      else
        match get_unique_filename env.cfgReplace env.existing
            (extract_filename url resp env.existing preferred) with
        | none => .ok none
        | some _ =>
            if env.writeRaises then .error ()
            else .ok (some (extract_filename url resp env.existing preferred))

/-- `RequestDownloader.download`: the body inside `try`/`except Exception`,
every escaping exception converted to a null result. -/
def requestDownload (env : ReqEnv) (url : String)
    (preferred : Option String) : Option String :=
  match requestDownloadBody env url preferred with
  | .ok r => r
  | .error _ => none

/-- Outcome of `ClickDownloader`'s link-finding block (whose own inner
`try` already converts a timeout or any other exception into a null
return): a download event with its suggested filename, no link found, or
an exception swallowed by the inner handlers. -/
inductive ClickFind where
  | found (suggested : Option String)
  | noLink
  | raised

/-- Environment of one `ClickDownloader.download` call. -/
structure ClickEnv where
  find : ClickFind
  saveRaises : Bool
  existing : List String
  cfgReplace : Option Bool

/-- `download.suggested_filename or "download"`. -/
def suggestedNameOf (suggested : Option String) : String :=
  if optTruthy suggested then suggested.getD "" else "download"

/-- The extension logic of `ClickDownloader`'s preferred-title branch. -/
def clickExt (url : String) (sname : String) : String :=
  if (splitext sname).2 ≠ "" then (splitext sname).2
  else if strEndsWith (pyLower url) ".pdf" then ".pdf"
  else if strEndsWith (pyLower url) ".zip" then ".zip"
  else (splitext (pyLower url)).2

/-- The filename `ClickDownloader` saves under. -/
def clickFilename (url : String) (suggested : Option String)
    (preferred : Option String) : String :=
  if optTruthy preferred then
    safe_filename (preferred.getD "") 90 ++
      clickExt url (suggestedNameOf suggested)
  else safe_filename (suggestedNameOf suggested) 90

/-- The `try` body of `ClickDownloader.download`. -/
def clickDownloadBody (env : ClickEnv) (url : String)
    (preferred : Option String) : Except Unit (Option String) :=
  match env.find with
  | .noLink => .ok none
  | .raised => .ok none
  | .found suggested =>
      match get_unique_filename env.cfgReplace env.existing
          (clickFilename url suggested preferred) with
      | none => .ok none
      | some _ =>
          if env.saveRaises then .error ()
          else .ok (some (clickFilename url suggested preferred))

/-- `ClickDownloader.download`: the body inside `try`/`except Exception`. -/
def clickDownload (env : ClickEnv) (url : String)
    (preferred : Option String) : Option String :=
  match clickDownloadBody env url preferred with
  | .ok r => r
  | .error _ => none

/-- `AutoDownloader.download`: try the request strategy; on a falsy result
(`None`; an empty string would also be falsy), fall back to the click
strategy on the same input. -/
def autoDownload (er : ReqEnv) (ec : ClickEnv) (url : String)
    (preferred : Option String) : Option String :=
  if optTruthy (requestDownload er url preferred)
  then requestDownload er url preferred
  else clickDownload ec url preferred

/-! ### Theorems -/

theorem contains_iff_mem {l : List String} {x : String} :
    l.contains x = true ↔ x ∈ l :=
  List.elem_iff

theorem mem_dedupSeen {x : String} :
    ∀ {l : List String} {seen : List String},
      x ∈ dedupSeen seen l ↔ x ∈ l ∧ x ∉ seen
  | [], seen => by simp [dedupSeen]
  | y :: ys, seen => by
      by_cases h : seen.contains y
      · rw [dedupSeen, if_pos h]
        rw [mem_dedupSeen (l := ys)]
        constructor
        · rintro ⟨hm, hs⟩
          exact ⟨List.mem_cons_of_mem _ hm, hs⟩
        · rintro ⟨hm, hs⟩
          rcases List.mem_cons.mp hm with rfl | hm
          · exact absurd (contains_iff_mem.mp h) hs
          · exact ⟨hm, hs⟩
      · rw [dedupSeen, if_neg h]
        constructor
        · intro hx
          rcases List.mem_cons.mp hx with rfl | hx
          · exact ⟨List.mem_cons_self _ _, fun hc => h (contains_iff_mem.mpr hc)⟩
          · rcases (mem_dedupSeen (l := ys)).mp hx with ⟨hm, hs⟩
            exact ⟨List.mem_cons_of_mem _ hm,
              fun hc => hs (List.mem_cons_of_mem _ hc)⟩
        · rintro ⟨hm, hs⟩
          rcases List.mem_cons.mp hm with rfl | hm
          · exact List.mem_cons_self _ _
          · by_cases hxy : x = y
            · subst hxy; exact List.mem_cons_self _ _
            · exact List.mem_cons_of_mem _ ((mem_dedupSeen (l := ys)).mpr
                ⟨hm, fun hc => (List.mem_cons.mp hc).elim hxy hs⟩)

theorem mem_dedupKeepFirst {x : String} {l : List String} :
    x ∈ dedupKeepFirst l ↔ x ∈ l := by
  rw [dedupKeepFirst, mem_dedupSeen]
  simp

theorem nodup_dedupSeen :
    ∀ (l : List String) (seen : List String), (dedupSeen seen l).Nodup
  | [], _ => List.nodup_nil
  | y :: ys, seen => by
      by_cases h : seen.contains y
      · rw [dedupSeen, if_pos h]
        exact nodup_dedupSeen ys seen
      · rw [dedupSeen, if_neg h]
        refine List.nodup_cons.mpr ⟨fun hy => ?_, nodup_dedupSeen ys (y :: seen)⟩
        rcases mem_dedupSeen.mp hy with ⟨_, hs⟩
        exact hs (List.mem_cons_self _ _)

theorem nodup_dedupKeepFirst (l : List String) : (dedupKeepFirst l).Nodup :=
  nodup_dedupSeen l []

theorem mem_includeUrl {p : Policy} {url x : String}
    (hx : x ∈ includeUrl p url) : x = url := by
  simp only [includeUrl, List.mem_append, List.mem_ite_nil_right,
    List.mem_singleton] at hx
  rcases hx with ((((⟨_, h⟩ | ⟨_, h⟩) | ⟨_, h⟩) | ⟨_, h⟩) | ⟨_, h⟩) | ⟨_, h⟩ <;>
    exact h

theorem mem_candidateContribution {p : Policy} {allowed : List String}
    {url x : String} (hx : x ∈ candidateContribution p allowed url) :
    x = url ∧ allowed.contains (netlocOf url) = true := by
  by_cases h : allowed.contains (netlocOf url)
  · rw [candidateContribution, if_pos h] at hx
    exact ⟨mem_includeUrl hx, h⟩
  · rw [candidateContribution, if_neg h] at hx
    exact absurd hx (List.not_mem_nil x)

theorem self_mem_includeUrl_iff {p : Policy} {url : String} :
    url ∈ includeUrl p url ↔ ruleMatches p url = true := by
  simp only [includeUrl, ruleMatches, List.mem_append, List.mem_ite_nil_right,
    List.mem_singleton, Bool.or_eq_true]
  constructor
  · rintro (((((⟨h, _⟩ | ⟨h, _⟩) | ⟨h, _⟩) | ⟨h, _⟩) | ⟨h, _⟩) | ⟨h, _⟩) <;>
      simp [h]
  · rintro (((((h | h) | h) | h) | h) | h) <;> simp [h]

/-! ### Deduplication lemmas for order and uniqueness -/

theorem contains_eq_false {l : List String} {x : String} (h : x ∉ l) :
    l.contains x = false :=
  Bool.eq_false_iff.mpr (fun hc => h (contains_iff_mem.mp hc))

theorem dedupSeen_seen_set_eq {s1 s2 : List String}
    (hs : ∀ z : String, z ∈ s1 ↔ z ∈ s2) :
    ∀ l : List String, dedupSeen s1 l = dedupSeen s2 l
  | [] => rfl
  | y :: ys => by
      have hc : s1.contains y = s2.contains y := by
        by_cases h : y ∈ s1
        · rw [contains_iff_mem.mpr h, contains_iff_mem.mpr ((hs y).mp h)]
        · rw [contains_eq_false h, contains_eq_false (fun hy => h ((hs y).mpr hy))]
      by_cases h : s2.contains y
      · rw [dedupSeen, dedupSeen, hc, if_pos h, if_pos h,
          dedupSeen_seen_set_eq hs ys]
      · rw [dedupSeen, dedupSeen, hc, if_neg h, if_neg h]
        have hs' : ∀ z : String, z ∈ y :: s1 ↔ z ∈ y :: s2 := by
          intro z
          simp only [List.mem_cons]
          exact or_congr Iff.rfl (hs z)
        rw [dedupSeen_seen_set_eq hs' ys]

theorem dedupSeen_cons_seen_of_not_mem {x : String} :
    ∀ {l : List String} {seen : List String}, x ∉ l →
      dedupSeen (x :: seen) l = dedupSeen seen l
  | [], _, _ => rfl
  | y :: ys, seen, hx => by
      have hyx : ¬ y = x := fun h => hx (h ▸ List.mem_cons_self _ _)
      have hx' : x ∉ ys := fun h => hx (List.mem_cons_of_mem _ h)
      have hc : (x :: seen).contains y = seen.contains y := by
        by_cases h : y ∈ seen
        · rw [contains_iff_mem.mpr (List.mem_cons_of_mem _ h),
            contains_iff_mem.mpr h]
        · rw [contains_eq_false h, contains_eq_false (fun hy => ?_)]
          rcases List.mem_cons.mp hy with h' | h'
          · exact hyx h'
          · exact h h'
      by_cases h : seen.contains y
      · rw [dedupSeen, dedupSeen, hc, if_pos h, if_pos h,
          dedupSeen_cons_seen_of_not_mem hx']
      · rw [dedupSeen, dedupSeen, hc, if_neg h, if_neg h]
        have : dedupSeen (y :: x :: seen) ys = dedupSeen (x :: y :: seen) ys := by
          refine dedupSeen_seen_set_eq (fun z => ?_) ys
          simp only [List.mem_cons]
          tauto
        rw [this, dedupSeen_cons_seen_of_not_mem hx']

theorem dedupSeen_append_all_seen {seen : List String} :
    ∀ {t : List String}, (∀ z ∈ t, z ∈ seen) → ∀ r : List String,
      dedupSeen seen (t ++ r) = dedupSeen seen r
  | [], _, r => rfl
  | z :: zs, ht, r => by
      have hz : seen.contains z :=
        contains_iff_mem.mpr (ht z (List.mem_cons_self _ _))
      rw [List.cons_append, dedupSeen, if_pos hz]
      exact dedupSeen_append_all_seen (fun w hw => ht w (List.mem_cons_of_mem _ hw)) r

theorem dedupSeen_flatMap_sublist (f : String → List String)
    (hf : ∀ x y : String, y ∈ f x → y = x) :
    ∀ (l : List String) (seen : List String),
      (dedupSeen seen (l.flatMap f)).Sublist (dedupSeen seen l)
  | [], _ => by simp [List.flatMap]
  | x :: xs, seen => by
      rw [List.flatMap_cons]
      by_cases hseen : seen.contains x
      · rw [dedupSeen, if_pos hseen,
          dedupSeen_append_all_seen
            (fun z hz => (hf x z hz) ▸ contains_iff_mem.mp hseen) (xs.flatMap f)]
        exact dedupSeen_flatMap_sublist f hf xs seen
      · rw [dedupSeen, if_neg hseen]
        match he : f x with
        | [] =>
            have hx_not : x ∉ xs.flatMap f := by
              intro hx
              rcases List.mem_flatMap.mp hx with ⟨u, _, hxu⟩
              have := hf u x hxu
              subst this
              rw [he] at hxu
              exact List.not_mem_nil x hxu
            rw [List.nil_append,
              ← @dedupSeen_cons_seen_of_not_mem x (xs.flatMap f) seen hx_not]
            exact List.Sublist.cons x (dedupSeen_flatMap_sublist f hf xs (x :: seen))
        | z :: t =>
            have hz : z = x := hf x z (he ▸ List.mem_cons_self _ _)
            subst hz
            have ht : ∀ w ∈ t, w ∈ z :: seen := by
              intro w hw
              have := hf z w (he ▸ List.mem_cons_of_mem _ hw)
              exact this ▸ List.mem_cons_self _ _
            rw [List.cons_append, dedupSeen, if_neg hseen,
              dedupSeen_append_all_seen ht (xs.flatMap f)]
            exact List.Sublist.cons₂ z (dedupSeen_flatMap_sublist f hf xs (z :: seen))

/-! ### Claim theorems: the filter -/

/-- C1: a discovered candidate URL whose host is not a member of the
configured allowed-hosts set is excluded from the result of both
attachment filters, whatever the six policy flags are and despite the
Moodle last-resort fallback. -/
theorem untrusted_host_excluded (p : Policy) (allowed : List String)
    (candidates : List String) (url : String)
    (h : netlocOf url ∉ allowed) :
    url ∉ roeseliteCollect p allowed candidates ∧
    url ∉ moodleCollect p allowed candidates := by
  constructor
  · intro hmem
    rw [roeseliteCollect, mem_dedupKeepFirst] at hmem
    rcases List.mem_flatMap.mp hmem with ⟨u, _, hu⟩
    rcases mem_candidateContribution hu with ⟨rfl, hc⟩
    exact h (contains_iff_mem.mp hc)
  · intro hmem
    rw [moodleCollect, mem_dedupKeepFirst] at hmem
    have hdl : url ∉ candidates.filter (fun u => allowed.contains (netlocOf u)) := by
      intro hf
      exact h (contains_iff_mem.mp (List.mem_filter.mp hf).2)
    by_cases hb :
        ((candidates.filter (fun u => allowed.contains (netlocOf u))).filter
            (moodleShouldInclude p)).isEmpty &&
          !(candidates.filter (fun u => allowed.contains (netlocOf u))).isEmpty
    · rw [if_pos hb] at hmem
      exact hdl hmem
    · rw [if_neg hb] at hmem
      exact hdl ((List.filter_sublist _).mem hmem)

/-- C1 witness: the untrusted host of the specification's scenario is
excluded from both filters. -/
theorem untrusted_host_excluded_witness :
    netlocOf "https://untrusted.org/c.zip" ∉ ["trusted.org"] ∧
    "https://untrusted.org/c.zip" ∉
      roeseliteCollect ⟨true, true, true, true, true, true⟩ ["trusted.org"]
        ["https://trusted.org/a.zip", "https://untrusted.org/c.zip"] ∧
    "https://untrusted.org/c.zip" ∉
      moodleCollect ⟨true, true, true, true, true, true⟩ ["trusted.org"]
        ["https://trusted.org/a.zip", "https://untrusted.org/c.zip"] := by
  have h : netlocOf "https://untrusted.org/c.zip" ∉ ["trusted.org"] := by decide
  have := untrusted_host_excluded ⟨true, true, true, true, true, true⟩
    ["trusted.org"] ["https://trusted.org/a.zip", "https://untrusted.org/c.zip"]
    "https://untrusted.org/c.zip" h
  exact ⟨h, this.1, this.2⟩

/-- C5 counterexample: the filter's host check does no wildcard-subdomain
matching.  With `*.example.org` the only allowed entry and every inclusion
flag on, the candidate `https://sub.example.org/a.zip` (which matches the
zip rule) is rejected, although the claim says a host `sub.example.org` is
admitted when `*.example.org` is listed. -/
theorem wildcard_host_not_admitted :
    roeseliteCollect ⟨true, true, true, true, true, true⟩ ["*.example.org"]
      ["https://sub.example.org/a.zip"] = [] ∧
    strEndsWith (pyLower "https://sub.example.org/a.zip") ".zip" = true := by
  constructor <;> decide

/-- C5 (amended): the filter's host check admits a URL's host only by exact
string membership in the allowed-hosts set (no wildcard-subdomain
matching): a candidate URL is in the result exactly when it was discovered,
its host is literally an element of the set, and some inclusion rule
matches it. -/
theorem host_check_exact_membership (p : Policy) (allowed : List String)
    (candidates : List String) (url : String) :
    url ∈ roeseliteCollect p allowed candidates ↔
      url ∈ candidates ∧ netlocOf url ∈ allowed ∧ ruleMatches p url = true := by
  rw [roeseliteCollect, mem_dedupKeepFirst, List.mem_flatMap]
  constructor
  · rintro ⟨u, hu, hc⟩
    rcases mem_candidateContribution hc with ⟨rfl, hal⟩
    rw [candidateContribution, if_pos hal] at hc
    exact ⟨hu, contains_iff_mem.mp hal, self_mem_includeUrl_iff.mp hc⟩
  · rintro ⟨hu, hal, hr⟩
    refine ⟨url, hu, ?_⟩
    rw [candidateContribution, if_pos (contains_iff_mem.mpr hal)]
    exact self_mem_includeUrl_iff.mpr hr

/-- C7: the filter's output is deduplicated (each included URL appears
exactly once, however many rules it matches) and preserves discovery
order: the output is a subsequence of the discovery-ordered list of
distinct candidates. -/
theorem filter_output_nodup_ordered (p : Policy) (allowed : List String)
    (candidates : List String) :
    (roeseliteCollect p allowed candidates).Nodup ∧
    (roeseliteCollect p allowed candidates).Sublist (dedupKeepFirst candidates) := by
  refine ⟨nodup_dedupKeepFirst _, ?_⟩
  exact dedupSeen_flatMap_sublist (candidateContribution p allowed)
    (fun x y hy => (mem_candidateContribution hy).1) candidates []

/-! ### Character-level facts about the sanitising pipeline -/

theorem toList_mk (l : List Char) : (String.mk l).toList = l := rfl

theorem mk_toList (s : String) : String.mk s.toList = s := rfl

theorem length_mk (l : List Char) : (String.mk l).length = l.length := rfl

theorem flatMap_id_of_singleton {l : List Char} {f : Char → List Char}
    (h : ∀ c ∈ l, f c = [c]) : l.flatMap f = l := by
  induction l with
  | nil => rfl
  | cons c cs ih =>
      rw [List.flatMap_cons, h c (List.mem_cons_self _ _),
        ih (fun d hd => h d (List.mem_cons_of_mem _ hd)), List.singleton_append]

theorem umlautChar_eq_of_ascii {c : Char} (hc : c.toNat < 128) :
    umlautChar c = [c] := by
  rw [umlautChar]
  have hfind : umlaut_map.find? (fun q => q.1 == c) = none := by
    rw [List.find?_eq_none]
    intro q hq hbeq
    have hq1 : 128 ≤ q.1.toNat := by
      have : ∀ q ∈ umlaut_map, 128 ≤ q.1.toNat := by decide
      exact this q hq
    rw [beq_iff_eq] at hbeq
    rw [hbeq] at hq1
    omega
  rw [hfind]

theorem normalizeUmlauts_eq_of_ascii {s : String}
    (h : ∀ c ∈ s.toList, c.toNat < 128) : normalizeUmlauts s = s := by
  rw [normalizeUmlauts,
    flatMap_id_of_singleton (fun c hc => umlautChar_eq_of_ascii (h c hc)),
    mk_toList]

theorem nfkdAsciiChar_eq_of_ascii {c : Char} (hc : c.toNat < 128) :
    nfkdAsciiChar c = [c] := by
  rw [nfkdAsciiChar, if_pos hc]

theorem asciiClean_eq_of_ascii {s : String}
    (h : ∀ c ∈ s.toList, c.toNat < 128) : asciiClean s = s := by
  rw [asciiClean,
    flatMap_id_of_singleton (fun c hc => nfkdAsciiChar_eq_of_ascii (h c hc)),
    mk_toList]

theorem mem_asciiClean {s : String} {d : Char}
    (hd : d ∈ (asciiClean s).toList) : d.toNat < 128 := by
  rw [asciiClean, toList_mk] at hd
  rcases List.mem_flatMap.mp hd with ⟨c, _, hdc⟩
  rw [nfkdAsciiChar] at hdc
  by_cases hc : c.toNat < 128
  · rw [if_pos hc] at hdc
    rwa [List.mem_singleton.mp hdc]
  · rw [if_neg hc] at hdc
    match hfind : nfkdTable.find? (fun q => q.1 == c) with
    | some q =>
        rw [hfind] at hdc
        have hq := List.mem_of_find?_eq_some hfind
        have : ∀ q ∈ nfkdTable, ∀ d ∈ q.2, d.toNat < 128 := by decide
        exact this q hq d hdc
    | none =>
        rw [hfind] at hdc
        exact absurd hdc (List.not_mem_nil d)

theorem mem_replaceBad {s : String} {d : Char}
    (hd : d ∈ (replaceBad s).toList) :
    d = '_' ∨ (d ∈ s.toList ∧ isBadChar d = false) := by
  rw [replaceBad, toList_mk] at hd
  rcases List.mem_map.mp hd with ⟨c, hc, hcd⟩
  by_cases hb : isBadChar c
  · rw [if_pos hb] at hcd
    exact Or.inl hcd.symm
  · rw [if_neg hb] at hcd
    subst hcd
    exact Or.inr ⟨hc, Bool.eq_false_iff.mpr hb⟩

theorem replaceBad_eq_of_no_bad {s : String}
    (h : ∀ c ∈ s.toList, isBadChar c = false) : replaceBad s = s := by
  rw [replaceBad]
  have h1 : s.toList.map (fun c => if isBadChar c then '_' else c)
      = s.toList.map (fun c => c) :=
    List.map_congr_left (fun c hc => by rw [h c hc]; simp)
  have h2 : s.toList.map (fun c : Char => c) = s.toList := by simp
  rw [h1, h2, mk_toList]

theorem mem_collapseAux {d : Char} :
    ∀ (l : List Char) (b : Bool), d ∈ collapseAux b l →
      d = '_' ∨ (d ∈ l ∧ spaceUnd d = false)
  | [], b => by intro hd; exact absurd hd (List.not_mem_nil d)
  | c :: cs, b => by
      intro hd
      rw [collapseAux] at hd
      by_cases hc : spaceUnd c
      · rw [if_pos hc] at hd
        cases b with
        | true =>
            rcases mem_collapseAux cs true hd with h | ⟨hm, hs⟩
            · exact Or.inl h
            · exact Or.inr ⟨List.mem_cons_of_mem _ hm, hs⟩
        | false =>
            rcases List.mem_cons.mp hd with rfl | hd'
            · exact Or.inl rfl
            · rcases mem_collapseAux cs true hd' with h | ⟨hm, hs⟩
              · exact Or.inl h
              · exact Or.inr ⟨List.mem_cons_of_mem _ hm, hs⟩
      · rw [if_neg hc] at hd
        rcases List.mem_cons.mp hd with rfl | hd'
        · exact Or.inr ⟨List.mem_cons_self _ _, Bool.eq_false_iff.mpr hc⟩
        · rcases mem_collapseAux cs false hd' with h | ⟨hm, hs⟩
          · exact Or.inl h
          · exact Or.inr ⟨List.mem_cons_of_mem _ hm, hs⟩

theorem collapseAux_chain :
    ∀ l : List Char,
      List.Chain' noRunStep (collapseAux false l) ∧
      List.Chain' noRunStep (collapseAux true l) ∧
      (∀ d ∈ (collapseAux true l).head?, spaceUnd d = false)
  | [] => by
      refine ⟨List.chain'_nil, List.chain'_nil, ?_⟩
      intro d hd
      simp [collapseAux] at hd
  | c :: cs => by
      obtain ⟨ihF, ihT, ihTH⟩ := collapseAux_chain cs
      by_cases hc : spaceUnd c
      · rw [collapseAux, if_pos hc, collapseAux, if_pos hc]
        refine ⟨List.chain'_cons'.mpr ⟨fun y hy => Or.inr (ihTH y hy), ihT⟩,
          ihT, ihTH⟩
      · rw [collapseAux, if_neg hc, collapseAux, if_neg hc]
        have hcons : List.Chain' noRunStep (c :: collapseAux false cs) :=
          List.chain'_cons'.mpr ⟨fun _ _ => Or.inl (Bool.eq_false_iff.mpr hc), ihF⟩
        refine ⟨hcons, hcons, ?_⟩
        intro d hd
        rw [List.head?_cons, Option.mem_some_iff] at hd
        rw [← hd]
        exact Bool.eq_false_iff.mpr hc

theorem collapseAux_false_eq_self :
    ∀ l : List Char, List.Chain' noRunStep l →
      (∀ c ∈ l, pySpace c = false) → collapseAux false l = l
  | [] => by intro _ _; rfl
  | c :: cs => by
      intro hch hsp
      obtain ⟨hhead, htail⟩ := List.chain'_cons'.mp hch
      have ih := collapseAux_false_eq_self cs htail
        (fun d hd => hsp d (List.mem_cons_of_mem _ hd))
      by_cases hc : spaceUnd c
      · have hcu : c = '_' := by
          have hps := hsp c (List.mem_cons_self _ _)
          rw [spaceUnd, hps, Bool.false_or, beq_iff_eq] at hc
          exact hc
        subst hcu
        rw [collapseAux, if_pos hc, if_neg Bool.false_ne_true]
        congr 1
        cases cs with
        | nil => rfl
        | cons d ds =>
            have hd : spaceUnd d = false := by
              rcases hhead d rfl with h | h
              · rw [h] at hc
                exact Bool.noConfusion hc
              · exact h
            have hd' : ¬(spaceUnd d = true) := fun hco => by
              rw [hd] at hco
              exact Bool.noConfusion hco
            rw [collapseAux, if_neg hd']
            rw [collapseAux, if_neg hd'] at ih
            injection ih with _ ih2
            rw [ih2]
      · rw [collapseAux, if_neg hc, ih]

theorem collapseRuns_eq_self {s : String}
    (hch : List.Chain' noRunStep s.toList)
    (hsp : ∀ c ∈ s.toList, pySpace c = false) : collapseRuns s = s := by
  rw [collapseRuns, collapseAux_false_eq_self s.toList hch hsp, mk_toList]

/-! ### Strip and truncation facts -/

theorem head?_of_isPrefix {l m : List Char} (h : l <+: m) {c : Char}
    (hc : l.head? = some c) : m.head? = some c := by
  rcases h with ⟨t, rfl⟩
  match l, hc with
  | a :: l', hc =>
      rw [List.head?_cons, Option.some.injEq] at hc
      rw [List.cons_append, List.head?_cons, hc]

theorem stripChars_isInfix (p : Char → Bool) (l : List Char) :
    (l.dropWhile p).rdropWhile p <:+: l := by
  rcases List.rdropWhile_prefix p (l.dropWhile p) with ⟨t, ht⟩
  rcases List.dropWhile_suffix (l := l) p with ⟨s, hs⟩
  exact ⟨s, t, by rw [List.append_assoc, ht, hs]⟩

theorem head_stripChars_not {p : Char → Bool} {l : List Char} {c : Char}
    (hc : ((l.dropWhile p).rdropWhile p).head? = some c) : p c = false := by
  have hdw : (l.dropWhile p).head? = some c :=
    head?_of_isPrefix (List.rdropWhile_prefix p _) hc
  have hne : l.dropWhile p ≠ [] := by
    intro h
    rw [h] at hdw
    exact Option.noConfusion hdw
  have := List.head_dropWhile_not p l hne
  rw [List.head?_eq_head hne, Option.some.injEq] at hdw
  rwa [hdw] at this

theorem last_rdropWhile_not {p : Char → Bool} {m : List Char} {c : Char}
    (hc : (m.rdropWhile p).getLast? = some c) : p c = false := by
  have hne : m.rdropWhile p ≠ [] := by
    intro h
    rw [h] at hc
    exact Option.noConfusion hc
  have := List.rdropWhile_last_not p m hne
  rw [List.getLast?_eq_getLast _ hne, Option.some.injEq] at hc
  rw [hc] at this
  exact Bool.eq_false_iff.mpr this

theorem dropWhile_eq_self_of_head {p : Char → Bool} {l : List Char}
    (h : ∀ c, l.head? = some c → p c = false) : l.dropWhile p = l := by
  match l with
  | [] => rfl
  | c :: cs =>
      rw [List.dropWhile_cons, if_neg (by rw [h c (by rw [List.head?_cons])]; simp)]

theorem rdropWhile_eq_self_of_last {p : Char → Bool} {l : List Char}
    (h : ∀ c, l.getLast? = some c → p c = false) : l.rdropWhile p = l := by
  rw [List.rdropWhile_eq_self_iff]
  intro hl
  rw [h (l.getLast hl) (List.getLast?_eq_getLast l hl)]
  simp

theorem stripChars_eq_self {p : Char → Bool} {l : List Char}
    (h : ∀ c ∈ l, p c = false) : (l.dropWhile p).rdropWhile p = l := by
  rw [dropWhile_eq_self_of_head
    (fun c hc => h c (List.mem_of_mem_head? (by rw [hc]; rfl)))]
  exact rdropWhile_eq_self_of_last
    (fun c hc => h c (List.mem_of_mem_getLast? (by rw [hc]; rfl)))

theorem collapsed_stage_clean (s : String) :
    (∀ c ∈ (collapseRuns (replaceBad (asciiClean s))).toList, cleanChar c) ∧
    List.Chain' noRunStep (collapseRuns (replaceBad (asciiClean s))).toList := by
  constructor
  · intro c hc
    rw [collapseRuns, toList_mk] at hc
    rcases mem_collapseAux _ false hc with rfl | ⟨hm, hs⟩
    · exact ⟨by decide, by decide, by decide⟩
    · have hsp : pySpace c = false := by
        rw [spaceUnd, Bool.or_eq_false_iff] at hs
        exact hs.1
      rcases mem_replaceBad hm with rfl | ⟨hm3, hbad⟩
      · exact ⟨by decide, hsp, by decide⟩
      · exact ⟨mem_asciiClean hm3, hsp, hbad⟩
  · rw [collapseRuns, toList_mk]
    exact (collapseAux_chain _).1

theorem sanitizePipeline_clean (s : String) :
    cleanOutput (sanitizePipeline s).toList := by
  obtain ⟨hchar, hchain⟩ :=
    collapsed_stage_clean (normalizeUmlauts (pyStrip s))
  have hinf := stripChars_isInfix underscoreDot
    (collapseRuns (replaceBad (asciiClean (normalizeUmlauts (pyStrip s))))).toList
  refine ⟨?_, ?_, ?_, ?_⟩
  · intro c hc
    rw [sanitizePipeline, pyStripChars, toList_mk] at hc
    exact hchar c (hinf.sublist.mem hc)
  · rw [sanitizePipeline, pyStripChars, toList_mk]
    exact hchain.infix hinf
  · intro c hc
    rw [sanitizePipeline, pyStripChars, toList_mk] at hc
    exact head_stripChars_not hc
  · intro c hc
    rw [sanitizePipeline, pyStripChars, toList_mk] at hc
    exact last_rdropWhile_not hc

theorem page_clean : cleanOutput ("page" : String).toList := by
  refine ⟨?_, ?_, ?_, ?_⟩
  · intro c hc
    rw [show ("page" : String).toList = ['p', 'a', 'g', 'e'] from rfl] at hc
    fin_cases hc <;> exact ⟨by decide, by decide, by decide⟩
  · rw [show ("page" : String).toList = ['p', 'a', 'g', 'e'] from rfl]
    refine List.chain'_cons.mpr ⟨Or.inl (by decide), ?_⟩
    refine List.chain'_cons.mpr ⟨Or.inl (by decide), ?_⟩
    refine List.chain'_cons.mpr ⟨Or.inl (by decide), ?_⟩
    exact List.chain'_singleton _
  · intro c hc
    rw [show ("page" : String).toList = ['p', 'a', 'g', 'e'] from rfl,
      List.head?_cons, Option.some.injEq] at hc
    subst hc
    decide
  · intro c hc
    rw [show ("page" : String).toList.getLast? = some 'e' from rfl,
      Option.some.injEq] at hc
    subst hc
    decide

theorem truncateName_length (t6 : String) (maxLen : Nat) :
    (truncateName t6 maxLen).length ≤ maxLen := by
  rw [truncateName]
  by_cases h : t6.length > maxLen
  · rw [if_pos h, pyRStripChars, length_mk]
    calc ((⟨t6.toList.take maxLen⟩ : String).toList.rdropWhile underscoreDot).length
        ≤ (⟨t6.toList.take maxLen⟩ : String).toList.length :=
          (List.rdropWhile_prefix _ _).length_le
      _ ≤ maxLen := by rw [toList_mk]; exact List.length_take_le _ _
  · rw [if_neg h]
    omega

theorem truncateName_clean {t6 : String} {maxLen : Nat}
    (h : cleanOutput t6.toList) :
    cleanOutput (truncateName t6 maxLen).toList := by
  obtain ⟨hchar, hchain, hhead, hlast⟩ := h
  rw [truncateName]
  by_cases hl : t6.length > maxLen
  · rw [if_pos hl, pyRStripChars, toList_mk, toList_mk]
    have hpre : (t6.toList.take maxLen).rdropWhile underscoreDot <+: t6.toList :=
      (List.rdropWhile_prefix _ _).trans (List.take_prefix _ _)
    refine ⟨?_, ?_, ?_, ?_⟩
    · intro c hc
      exact hchar c (hpre.sublist.mem hc)
    · exact hchain.prefix hpre
    · intro c hc
      exact hhead c (head?_of_isPrefix hpre hc)
    · intro c hc
      exact last_rdropWhile_not hc
  · rw [if_neg hl]
    exact ⟨hchar, hchain, hhead, hlast⟩

theorem safe_filename_invariant (s : String) (maxLen : Nat) :
    safe_filename s maxLen ≠ "" ∧
    cleanOutput (safe_filename s maxLen).toList ∧
    ((safe_filename s maxLen).length ≤ maxLen ∨ safe_filename s maxLen = "page") := by
  rw [safe_filename]
  by_cases h0 : s = ""
  · rw [if_pos h0]
    exact ⟨by decide, page_clean, Or.inr rfl⟩
  · rw [if_neg h0]
    by_cases h1 : truncateName (sanitizePipeline s) maxLen = ""
    · rw [if_pos h1]
      exact ⟨by decide, page_clean, Or.inr rfl⟩
    · rw [if_neg h1]
      exact ⟨h1, truncateName_clean (sanitizePipeline_clean s),
        Or.inl (truncateName_length _ _)⟩

theorem safe_filename_idem (s : String) (maxLen : Nat) (h4 : 4 ≤ maxLen) :
    safe_filename (safe_filename s maxLen) maxLen = safe_filename s maxLen := by
  obtain ⟨hne, ⟨hchar, hchain, hhead, hlast⟩, hlen⟩ :=
    safe_filename_invariant s maxLen
  set r := safe_filename s maxLen with hr
  have hsan : sanitizePipeline r = r := by
    have hsp : pyStrip r = r := by
      rw [pyStrip, stripChars_eq_self (fun c hc => (hchar c hc).2.1), mk_toList]
    have hnu : normalizeUmlauts r = r :=
      normalizeUmlauts_eq_of_ascii (fun c hc => (hchar c hc).1)
    have hac : asciiClean r = r :=
      asciiClean_eq_of_ascii (fun c hc => (hchar c hc).1)
    have hrb : replaceBad r = r :=
      replaceBad_eq_of_no_bad (fun c hc => (hchar c hc).2.2)
    have hcr : collapseRuns r = r :=
      collapseRuns_eq_self hchain (fun c hc => (hchar c hc).2.1)
    rw [sanitizePipeline, hsp, hnu, hac, hrb, hcr, pyStripChars,
      dropWhile_eq_self_of_head hhead, rdropWhile_eq_self_of_last hlast,
      mk_toList]
  have hlen' : r.length ≤ maxLen := by
    rcases hlen with h | h
    · exact h
    · rw [h]
      have : ("page" : String).length = 4 := rfl
      omega
  have htr : truncateName r maxLen = r := by
    rw [truncateName, if_neg (by omega)]
  rw [safe_filename, if_neg hne, hsan, htr, if_neg hne]

/-- C8: the safe-naming function is a fixed point on its own outputs: a
second application of `safe_filename` (at its default maximum length) to a
name it produced returns the name unchanged. -/
theorem safe_filename_fixed_point (s : String) :
    safe_filename (safe_filename s 90) 90 = safe_filename s 90 :=
  safe_filename_idem s 90 (by omega)

/-- C10: with the default maximum length, `safe_filename` always returns a
non-empty ASCII string of at most 90 characters with no whitespace, none
of the characters forbidden in filenames, and no leading or trailing
underscore or dot; inputs whose sanitised core is empty yield `"page"`. -/
theorem safe_filename_default_props (s : String) :
    safe_filename s 90 ≠ "" ∧
    (safe_filename s 90).length ≤ 90 ∧
    (∀ c ∈ (safe_filename s 90).toList,
      c.toNat < 128 ∧ pySpace c = false ∧ isBadChar c = false) ∧
    (∀ c, (safe_filename s 90).toList.head? = some c → underscoreDot c = false) ∧
    (∀ c, (safe_filename s 90).toList.getLast? = some c →
      underscoreDot c = false) ∧
    (sanitizePipeline s = "" → safe_filename s 90 = "page") := by
  obtain ⟨hne, ⟨hchar, hchain, hhead, hlast⟩, hlen⟩ :=
    safe_filename_invariant s 90
  refine ⟨hne, ?_, hchar, hhead, hlast, ?_⟩
  · rcases hlen with h | h
    · exact h
    · rw [h]
      decide
  · intro hempty
    rw [safe_filename]
    by_cases h0 : s = ""
    · rw [if_pos h0]
    · rw [if_neg h0, hempty]
      rw [show truncateName "" 90 = "" from rfl]
      rw [if_pos rfl]

/-- C10 witness: a string of only forbidden characters sanitises to
nothing and yields the fallback name. -/
theorem safe_filename_default_props_witness :
    safe_filename "???" 90 = "page" ∧ safe_filename "???" 90 ≠ "" :=
  ⟨(safe_filename_default_props "???").2.2.2.2.2 (by decide),
   (safe_filename_default_props "???").1⟩

/-! ### Injectivity of the decimal rendering -/

theorem toDigitsCore_eq_digitsList :
    ∀ (f n : Nat) (l : List Char), n < f →
      Nat.toDigitsCore 10 f n l = digitsList n ++ l
  | 0, n, l => by omega
  | f + 1, n, l => by
      intro h
      by_cases hdiv : n / 10 = 0
      · have hn : n < 10 := by omega
        simp only [Nat.toDigitsCore]
        rw [if_pos hdiv, digitsList, dif_pos hn, Nat.mod_eq_of_lt hn,
          List.singleton_append]
      · have h10 : 10 ≤ n := by omega
        have hdn : digitsList n =
            digitsList (n / 10) ++ [Nat.digitChar (n % 10)] := by
          rw [digitsList, dif_neg (by omega : ¬ n < 10)]
        simp only [Nat.toDigitsCore]
        rw [if_neg hdiv,
          toDigitsCore_eq_digitsList f (n / 10) (Nat.digitChar (n % 10) :: l)
            (by omega),
          hdn, List.append_assoc, List.singleton_append]

theorem digitVal_digitChar : ∀ d < 10, digitVal (Nat.digitChar d) = d := by
  decide

theorem valDigits_digitsList (n : Nat) : valDigits (digitsList n) = n := by
  induction n using Nat.strong_induction_on with
  | _ n ih =>
    by_cases h : n < 10
    · rw [digitsList, dif_pos h]
      show 10 * 0 + digitVal (Nat.digitChar n) = n
      rw [digitVal_digitChar n h]
      omega
    · rw [digitsList, dif_neg h]
      rw [valDigits, List.foldl_append]
      show 10 * valDigits (digitsList (n / 10)) +
          digitVal (Nat.digitChar (n % 10)) = n
      rw [ih (n / 10) (Nat.div_lt_self (by omega) (by omega)),
        digitVal_digitChar (n % 10) (Nat.mod_lt n (by omega))]
      omega

theorem repr_eq_digitsList (n : Nat) : Nat.repr n = ⟨digitsList n⟩ := by
  rw [Nat.repr, Nat.toDigits,
    toDigitsCore_eq_digitsList (n + 1) n [] (Nat.lt_succ_self n),
    List.append_nil]
  rfl

theorem nat_repr_injective {m n : Nat} (h : Nat.repr m = Nat.repr n) :
    m = n := by
  rw [repr_eq_digitsList, repr_eq_digitsList] at h
  have hl : digitsList m = digitsList n := congrArg String.data h
  have hv := congrArg valDigits hl
  rwa [valDigits_digitsList, valDigits_digitsList] at hv

theorem candName_inj {stem ext : String} {j k : Nat}
    (h : candName stem ext j = candName stem ext k) : j = k := by
  have hd := congrArg String.data h
  rw [candName, candName, String.data_append, String.data_append,
    String.data_append, String.data_append] at hd
  have h1 := List.append_cancel_right hd
  have h2 := List.append_cancel_left h1
  exact nat_repr_injective
    (show Nat.repr j = Nat.repr k from congrArg String.mk h2)

/-! ### Freshness of the collision loop -/

theorem candRange_le_length (stem ext : String) :
    ∀ (n : Nat) (l : List String) (k : Nat),
      (∀ j, k ≤ j → j < k + n → candName stem ext j ∈ l) → n ≤ l.length
  | 0, l, k => fun _ => Nat.zero_le _
  | n + 1, l, k => fun h => by
      have hk : candName stem ext k ∈ l := h k le_rfl (by omega)
      have hrec : ∀ j, k + 1 ≤ j → j < (k + 1) + n →
          candName stem ext j ∈ l.erase (candName stem ext k) := by
        intro j hj1 hj2
        refine (List.mem_erase_of_ne (fun heq => ?_)).mpr (h j (by omega) (by omega))
        have := candName_inj heq
        omega
      have hle := candRange_le_length stem ext n
        (l.erase (candName stem ext k)) (k + 1) hrec
      have hlen := List.length_erase_of_mem hk
      have hpos : 1 ≤ l.length := List.length_pos.mpr
        (fun hnil => by rw [hnil] at hk; exact List.not_mem_nil _ hk)
      omega

theorem findSuffix_not_mem (existing : List String) (stem ext : String) :
    ∀ (fuel k : Nat),
      (¬ ∀ j, k ≤ j → j < k + fuel → candName stem ext j ∈ existing) →
      findSuffix existing stem ext fuel k ∉ existing
  | 0, k => fun h => by
      exact absurd (fun j hj1 hj2 => absurd (by omega : (k + 0 : Nat) ≤ j) (by omega)) h
  | fuel + 1, k => fun h => by
      by_cases hc : existing.contains (candName stem ext k)
      · rw [findSuffix, if_pos hc]
        refine findSuffix_not_mem existing stem ext fuel (k + 1) (fun hall => h ?_)
        intro j hj1 hj2
        by_cases hjk : j = k
        · subst hjk
          exact contains_iff_mem.mp hc
        · exact hall j (by omega) (by omega)
      · rw [findSuffix, if_neg hc]
        exact fun hmem => hc (contains_iff_mem.mpr hmem)

theorem findSuffix_form (existing : List String) (stem ext : String) :
    ∀ (fuel k : Nat), ∃ m, k ≤ m ∧
      findSuffix existing stem ext fuel k = candName stem ext m
  | 0, k => ⟨k, le_rfl, rfl⟩
  | fuel + 1, k => by
      by_cases hc : existing.contains (candName stem ext k)
      · obtain ⟨m, hm, he⟩ := findSuffix_form existing stem ext fuel (k + 1)
        exact ⟨m, by omega, by rw [findSuffix, if_pos hc, he]⟩
      · exact ⟨k, le_rfl, by rw [findSuffix, if_neg hc]⟩

/-- C2 (amended): in the legacy `Scraper.save_attachments_for_current_page`
path, a second resource whose computed base filename collides with a name
already present in the directory is resolved to a fresh `stem_k ext` name
with `k ≥ 2`: no filename already allocated during the run is reused, the
resource is neither skipped nor does it overwrite the first.  (In the
`Downloader._get_unique_filename` path the collision is instead skipped or
overwritten according to the replacement policy — see the
counterexample.) -/
theorem collision_resolution_suffixes (existing : List String)
    (filename : String) (h : filename ∈ existing) :
    resolveCollision existing filename ∉ existing ∧
    ∃ k, 2 ≤ k ∧ resolveCollision existing filename =
      candName (splitext filename).1 (splitext filename).2 k := by
  rw [resolveCollision, if_pos (contains_iff_mem.mpr h)]
  constructor
  · refine findSuffix_not_mem existing _ _ (existing.length + 1) 2 (fun hall => ?_)
    have := candRange_le_length (splitext filename).1 (splitext filename).2
      (existing.length + 1) existing 2 hall
    omega
  · exact findSuffix_form existing _ _ (existing.length + 1) 2

/-- C2 witness: with `a.txt` already saved, a second resource named
`a.txt` is resolved to the fresh suffixed name `a_2.txt`. -/
theorem collision_resolution_suffixes_witness :
    "a.txt" ∈ ["a.txt"] ∧
    resolveCollision ["a.txt"] "a.txt" ∉ ["a.txt"] ∧
    resolveCollision ["a.txt"] "a.txt" = "a_2.txt" :=
  ⟨by decide,
   (collision_resolution_suffixes ["a.txt"] "a.txt" (by decide)).1,
   by decide⟩

/-- C2 counterexample: in the strategy downloaders' shared resolution step
(`Downloader._get_unique_filename`), which the claim also covers, a second
distinct resource whose computed base filename `notes.pdf` equals an
already-saved file's name is never given a `_2` suffix: with replacement
disabled it is skipped (null), with replacement enabled it gets the same
path back and overwrites the first — contradicting the claim that the
second resource is neither skipped nor overwrites. -/
theorem collision_skipped_or_overwritten_in_downloader :
    get_unique_filename (some false) ["notes.pdf"] "notes.pdf" = none ∧
    get_unique_filename (some true) ["notes.pdf"] "notes.pdf" =
      some "notes.pdf" := by
  constructor <;> rfl

/-- C3: the shared filename-resolution step returns the proposed name when
no file of that name exists; when one exists it returns the same name
under an enabled replacement policy (overwrite) and null (skip) when
replacement is disabled or no configuration was supplied. -/
theorem unique_filename_policy (cfg : Option Bool) (existing : List String)
    (filename : String) :
    (filename ∉ existing →
      get_unique_filename cfg existing filename = some filename) ∧
    (filename ∈ existing → cfg.getD false = true →
      get_unique_filename cfg existing filename = some filename) ∧
    (filename ∈ existing → cfg.getD false = false →
      get_unique_filename cfg existing filename = none) := by
  refine ⟨?_, ?_, ?_⟩
  · intro h
    rw [get_unique_filename, if_pos (by rw [contains_eq_false h]; rfl)]
  · intro h hr
    rw [get_unique_filename,
      if_neg (by rw [contains_iff_mem.mpr h]; exact (by decide)), if_pos hr]
  · intro h hr
    rw [get_unique_filename,
      if_neg (by rw [contains_iff_mem.mpr h]; exact (by decide)),
      if_neg (by rw [hr]; exact (by decide))]

/-- C3 witness: the specification's `notes.pdf` scenario, together with the
no-conflict case. -/
theorem unique_filename_policy_witness :
    get_unique_filename (some false) ["notes.pdf"] "notes.pdf" = none ∧
    get_unique_filename (some true) ["notes.pdf"] "notes.pdf" =
      some "notes.pdf" ∧
    get_unique_filename (some false) [] "notes.pdf" = some "notes.pdf" :=
  ⟨(unique_filename_policy (some false) ["notes.pdf"] "notes.pdf").2.2
      (by decide) rfl,
   (unique_filename_policy (some true) ["notes.pdf"] "notes.pdf").2.1
      (by decide) rfl,
   (unique_filename_policy (some false) [] "notes.pdf").1 (by decide)⟩

/-! ### The downloader strategies never return an empty filename -/

theorem eq_empty_of_length_eq_zero {s : String} (h : s.length = 0) :
    s = "" := by
  obtain ⟨d⟩ := s
  rw [length_mk, List.length_eq_zero] at h
  rw [h]

theorem append_ne_empty_left {a : String} (b : String) (ha : a ≠ "") :
    a ++ b ≠ "" := by
  intro h
  have hlen := congrArg String.length h
  rw [String.length_append] at hlen
  exact ha (eq_empty_of_length_eq_zero (by
    have : ("" : String).length = 0 := rfl
    omega))

theorem splitext_concat (s : String) :
    (splitext s).1 ++ (splitext s).2 = s := by
  rw [splitext]
  cases hdot : lastDotIndex s.toList with
  | none => exact String.append_empty s
  | some i =>
      dsimp only
      by_cases hany : (s.toList.take i).any (fun c => !(c == '.'))
      · rw [if_pos hany]
        show String.mk (s.toList.take i ++ s.toList.drop i) = s
        rw [List.take_append_drop]
        rfl
      · rw [if_neg hany]
        exact String.append_empty s

theorem suggest_filename_ne_empty (url : String) (existing : List String) :
    suggest_filename url existing ≠ "" := by
  rw [suggest_filename]
  by_cases h : !existing.contains (safe_filename
      (if pyBasename (urlPathOf url) = "" then "file"
       else pyBasename (urlPathOf url)) 90)
  · rw [if_pos h]
    exact (safe_filename_invariant _ 90).1
  · rw [if_neg h]
    intro hcontra
    have hlen := congrArg String.length hcontra
    rw [String.length_append, String.length_append] at hlen
    have hb := congrArg String.length (splitext_concat (safe_filename
      (if pyBasename (urlPathOf url) = "" then "file"
       else pyBasename (urlPathOf url)) 90))
    rw [String.length_append] at hb
    have hne := (safe_filename_invariant
      (if pyBasename (urlPathOf url) = "" then "file"
       else pyBasename (urlPathOf url)) 90).1
    have h0 : ("" : String).length = 0 := rfl
    refine hne (eq_empty_of_length_eq_zero ?_)
    omega

theorem extract_filename_ne_empty (url : String) (resp : PyResp)
    (existing : List String) (preferred : Option String) :
    extract_filename url resp existing preferred ≠ "" := by
  rw [extract_filename]
  by_cases h1 : optTruthy preferred
  · rw [if_pos h1]
    exact append_ne_empty_left _ (safe_filename_invariant _ 90).1
  · rw [if_neg h1]
    by_cases h2 : cdOf resp ≠ ""
    · rw [if_pos h2]
      cases hm : cdFilenameMatch (cdOf resp) with
      | none => exact suggest_filename_ne_empty url existing
      | some cap =>
          dsimp only
          by_cases h3 : strStartsWith (pyStrip cap) "UTF-8''"
          · rw [if_pos h3]
            exact (safe_filename_invariant _ 90).1
          · rw [if_neg h3]
            exact (safe_filename_invariant _ 90).1
    · rw [if_neg h2]
      exact suggest_filename_ne_empty url existing

theorem requestDownload_some_ne_empty {env : ReqEnv} {url : String}
    {preferred : Option String} {f : String}
    (h : requestDownload env url preferred = some f) : f ≠ "" := by
  rw [requestDownload, requestDownloadBody] at h
  cases henv : env.resp with
  | error e =>
      rw [henv] at h
      exact Option.noConfusion h
  | ok resp =>
      rw [henv] at h
      dsimp only at h
      by_cases hok : !resp.ok
      · rw [if_pos hok] at h
        exact Option.noConfusion h
      · rw [if_neg hok] at h
        cases hguf : get_unique_filename env.cfgReplace env.existing
            (extract_filename url resp env.existing preferred) with
        | none =>
            rw [hguf] at h
            dsimp only at h
            exact Option.noConfusion h
        | some tgt =>
            rw [hguf] at h
            dsimp only at h
            by_cases hw : env.writeRaises
            · rw [if_pos hw] at h
              exact Option.noConfusion h
            · rw [if_neg hw] at h
              have hf : extract_filename url resp env.existing preferred = f :=
                Option.some.inj h
              rw [← hf]
              exact extract_filename_ne_empty url resp env.existing preferred

/-- C4: none of the three strategies lets an internal failure escape its
boundary: the translated `try` bodies of the direct-request and
simulated-click strategies may fault, but each public `download` entry
point converts every fault into a null result, and the composite strategy
only ever returns one of its sub-strategies' (fault-free) results. -/
theorem download_never_raises (er : ReqEnv) (ec : ClickEnv) (url : String)
    (preferred : Option String) :
    (∀ e, requestDownloadBody er url preferred = Except.error e →
      requestDownload er url preferred = none) ∧
    (∀ e, clickDownloadBody ec url preferred = Except.error e →
      clickDownload ec url preferred = none) ∧
    (autoDownload er ec url preferred = requestDownload er url preferred ∨
     autoDownload er ec url preferred = clickDownload ec url preferred) := by
  refine ⟨?_, ?_, ?_⟩
  · intro e he
    rw [requestDownload, he]
  · intro e he
    rw [clickDownload, he]
  · rw [autoDownload]
    by_cases h : optTruthy (requestDownload er url preferred)
    · exact Or.inl (if_pos h)
    · exact Or.inr (if_neg h)

/-- C4 witness: a faulting fetch and a faulting save are both caught and
reported as null results. -/
theorem download_never_raises_witness :
    requestDownloadBody ⟨Except.error (), false, [], none⟩ "https://h/x" none =
      Except.error () ∧
    requestDownload ⟨Except.error (), false, [], none⟩ "https://h/x" none = none ∧
    clickDownloadBody ⟨ClickFind.found (some "a.pdf"), true, [], none⟩
      "https://h/x" none = Except.error () ∧
    clickDownload ⟨ClickFind.found (some "a.pdf"), true, [], none⟩
      "https://h/x" none = none :=
  ⟨rfl,
   (download_never_raises ⟨Except.error (), false, [], none⟩
      ⟨ClickFind.found (some "a.pdf"), true, [], none⟩ "https://h/x" none).1 () rfl,
   rfl,
   (download_never_raises ⟨Except.error (), false, [], none⟩
      ⟨ClickFind.found (some "a.pdf"), true, [], none⟩ "https://h/x" none).2.1 ()
      rfl⟩

/-- C6: the composite strategy first invokes the direct-request strategy
and returns its result when that is non-null; exactly when the direct
request returns null does it invoke the simulated-click strategy on the
same input and return that result. -/
theorem auto_strategy_order (er : ReqEnv) (ec : ClickEnv) (url : String)
    (preferred : Option String) :
    (∀ f, requestDownload er url preferred = some f →
      autoDownload er ec url preferred = some f) ∧
    (requestDownload er url preferred = none →
      autoDownload er ec url preferred = clickDownload ec url preferred) := by
  constructor
  · intro f hf
    have hne := requestDownload_some_ne_empty hf
    rw [autoDownload, hf, if_pos (by
      rw [optTruthy]
      simp [hne])]
  · intro hnone
    rw [autoDownload, hnone, if_neg (by rw [optTruthy]; simp)]

/-- C6 witness: a successful direct request is returned as is; an HTTP 404
makes the direct request return null and the composite strategy return the
click strategy's result on the same input. -/
theorem auto_strategy_order_witness :
    requestDownload ⟨Except.ok ⟨true, 200, some "application/pdf", none⟩,
        false, [], none⟩ "https://h.org/files/notes.pdf" none =
      some "notes.pdf" ∧
    autoDownload ⟨Except.ok ⟨true, 200, some "application/pdf", none⟩,
        false, [], none⟩ ⟨ClickFind.noLink, false, [], none⟩
      "https://h.org/files/notes.pdf" none = some "notes.pdf" ∧
    requestDownload ⟨Except.ok ⟨false, 404, none, none⟩, false, [], none⟩
      "https://h.org/files/notes.pdf" none = none ∧
    autoDownload ⟨Except.ok ⟨false, 404, none, none⟩, false, [], none⟩
        ⟨ClickFind.noLink, false, [], none⟩ "https://h.org/files/notes.pdf" none =
      clickDownload ⟨ClickFind.noLink, false, [], none⟩
        "https://h.org/files/notes.pdf" none :=
  ⟨by decide,
   (auto_strategy_order ⟨Except.ok ⟨true, 200, some "application/pdf", none⟩,
      false, [], none⟩ ⟨ClickFind.noLink, false, [], none⟩
      "https://h.org/files/notes.pdf" none).1 "notes.pdf" (by decide),
   by decide,
   (auto_strategy_order ⟨Except.ok ⟨false, 404, none, none⟩, false, [], none⟩
      ⟨ClickFind.noLink, false, [], none⟩
      "https://h.org/files/notes.pdf" none).2 (by decide)⟩

/-! ### The decode branch of `_extract_filename` is unreachable

The capturing group `[^"';]+` can never contain an apostrophe, so a
captured name can never start with `UTF-8''`: the `unquote` call guarded by
that test is dead code. -/

theorem quoteCap_chars {cs cap : List Char} (h : quoteCap cs = some cap) :
    ∀ c ∈ cap, capChar c = true := by
  rw [quoteCap] at h
  cases htw : (quoteStrip cs).takeWhile capChar with
  | nil =>
      rw [htw] at h
      exact Option.noConfusion h
  | cons c t =>
      rw [htw] at h
      dsimp only at h
      intro d hd
      rw [← Option.some.inj h] at hd
      exact List.mem_takeWhile_imp (htw ▸ hd)

theorem matchFilenameAt_chars {cs cap : List Char}
    (h : matchFilenameAt cs = some cap) : ∀ c ∈ cap, capChar c = true := by
  rw [matchFilenameAt] at h
  by_cases hpre : ("filename".toList).isPrefixOf cs
  · rw [if_pos hpre] at h
    cases hse : starEq (cs.drop 8) with
    | none =>
        rw [hse] at h
        exact Option.noConfusion h
    | some rest =>
        rw [hse] at h
        dsimp only at h
        by_cases hutf : ("UTF-8''".toList).isPrefixOf rest
        · rw [if_pos hutf] at h
          cases hq : quoteCap (rest.drop 7) with
          | some cap2 =>
              rw [hq] at h
              dsimp only at h
              exact (Option.some.inj h) ▸ quoteCap_chars hq
          | none =>
              rw [hq] at h
              dsimp only at h
              exact quoteCap_chars h
        · rw [if_neg hutf] at h
          exact quoteCap_chars h
  · rw [if_neg hpre] at h
    exact Option.noConfusion h

theorem searchFilename_chars :
    ∀ {cs cap : List Char}, searchFilename cs = some cap →
      ∀ c ∈ cap, capChar c = true
  | [], cap => fun h => Option.noConfusion h
  | c :: cs, cap => fun h => by
      rw [searchFilename] at h
      cases hm : matchFilenameAt (c :: cs) with
      | some cap2 =>
          rw [hm] at h
          dsimp only at h
          exact (Option.some.inj h) ▸ matchFilenameAt_chars hm
      | none =>
          rw [hm] at h
          dsimp only at h
          exact searchFilename_chars h

theorem strStartsWith_utf8_false {s : String}
    (h : ∀ c ∈ s.toList, capChar c = true) :
    strStartsWith s "UTF-8''" = false := by
  rw [strStartsWith]
  refine Bool.eq_false_iff.mpr (fun hpre => ?_)
  have hprefix := List.isPrefixOf_iff_prefix.mp hpre
  have hmem : '\'' ∈ s.toList :=
    List.Sublist.mem (by decide) hprefix.sublist
  exact absurd (h _ hmem) (by decide)

/-- Every name the content-disposition regex captures fails the
`startswith("UTF-8''")` guard: the percent-decoding branch is dead code. -/
theorem cd_decode_branch_unreachable {cd cap : String}
    (h : cdFilenameMatch cd = some cap) :
    strStartsWith (pyStrip cap) "UTF-8''" = false := by
  apply strStartsWith_utf8_false
  intro c hc
  have hsub : c ∈ cap.toList := by
    rw [pyStrip, toList_mk] at hc
    exact (stripChars_isInfix pySpace cap.toList).sublist.mem hc
  rw [cdFilenameMatch] at h
  cases hs : searchFilename cd.toList with
  | none =>
      rw [hs] at h
      exact Option.noConfusion h
  | some l =>
      rw [hs] at h
      rw [Option.map_some'] at h
      refine searchFilename_chars hs c ?_
      rw [← Option.some.inj h] at hsub
      exact hsub

/-- C9 (evaluation at the failing input): with no preferred title and the
header value `attachment; filename*=UTF-8''report%20final.pdf`, the
direct-request strategy keeps the percent-encoded name: the regex's
non-capturing group already consumed `UTF-8''`, so the decode branch —
whose guard looks for `UTF-8''` at the start of a captured group that can
never contain an apostrophe — does not fire, and the name the claim
expects (`report final.pdf`, with the space decoded) is not produced. -/
theorem percent_encoding_not_decoded :
    extract_filename "https://h.org/get.php?id=1"
        ⟨true, 200, some "application/pdf",
         some "attachment; filename*=UTF-8''report%20final.pdf"⟩ [] none =
      "report%20final.pdf" ∧
    "report%20final.pdf" ≠ "report final.pdf" := by
  constructor
  · rfl
  · decide

end Scraper
